import Mathlib

/-!
Verification of the uORB message documentation generator
(`Tools/msg/generate_msg_docs.py`).

The Python source is shallowly embedded: strings are `List Char` with
helpers that mirror Python's `str.split`, `str.strip`, `str.startswith`
and `re.sub(r'\s+', ' ', s)`; dictionaries (which preserve insertion
order in Python) are association lists; `exit()` calls and Python
runtime errors (`IndexError` on an out-of-range subscript, `KeyError`
on `del` of a missing key) are modelled with `Except`.  The
process-wide mutable `invalid_units` set is threaded explicitly as an
insertion-ordered list.
-/

namespace MsgDocs

/-- Strings of the embedded program, as character lists. -/
abbrev Str := List Char

/-- Whitespace characters recognised by `str.strip` / `\s` (the common ones). -/
def isWS (c : Char) : Bool :=
  c = ' ' || c = '\t' || c = '\n' || c = '\r'

/-- Drop trailing whitespace. -/
def dropTrailWS (l : Str) : Str :=
  (l.reverse.dropWhile isWS).reverse

/-- Python `str.strip()`: drop leading and trailing whitespace. -/
def pyStrip (l : Str) : Str :=
  dropTrailWS (l.dropWhile isWS)

/-- Collapse each maximal run of whitespace to a single space
(`re.sub(r'\s+', ' ', line)`). -/
def collapseWS : Str → Str
  | [] => []
  | [c] => if isWS c then [' '] else [c]
  | c :: d :: rest =>
    if isWS c && isWS d then collapseWS (d :: rest)
    else (if isWS c then ' ' else c) :: collapseWS (d :: rest)

/-- `re.sub(r'\s+', ' ', line).strip()` (line 266 of the source). -/
def normWs (l : Str) : Str := pyStrip (collapseWS l)

/-- Python `s.split(sep)` for a one-character separator: the pieces
between occurrences of `sep`, empty pieces included; never empty. -/
def pySplit (sep : Char) : Str → List Str
  | [] => [[]]
  | c :: rest =>
    if c = sep then [] :: pySplit sep rest
    else (pySplit sep rest).modifyHead (fun p => c :: p)

/-- Python `s.startswith(p)`: `startswith s p` means `s` begins with `p`. -/
def startswith : Str → Str → Bool
  | _, [] => true
  | [], _ :: _ => false
  | c :: s, p :: ps => c = p && startswith s ps

/-! ### Association lists standing for Python dictionaries -/

/-- Lookup by key (Python `d[k]` read / `k in d`). -/
def lookupKey {α : Type} (m : List (Str × α)) (k : Str) : Option α :=
  match m with
  | [] => none
  | p :: rest => if p.1 = k then some p.2 else lookupKey rest k

/-- Python `k in d`. -/
def containsKey {α : Type} (m : List (Str × α)) (k : Str) : Bool :=
  (lookupKey m k).isSome

/-- Python `d[k] = v`: update in place if the key exists (keeping its
insertion position), otherwise append. -/
def assocInsert {α : Type} (m : List (Str × α)) (k : Str) (v : α) : List (Str × α) :=
  if containsKey m k then
    m.map (fun p => if p.1 = k then (k, v) else p)
  else m ++ [(k, v)]

/-- Python `del d[k]` once the key is known present: remove the entry. -/
def assocErase {α : Type} (m : List (Str × α)) (k : Str) : List (Str × α) :=
  m.filter (fun p => decide (p.1 ≠ k))

/-- The keys, in insertion order. -/
def keys {α : Type} (m : List (Str × α)) : List Str := m.map (·.1)

/-- Insertion-ordered set insert, modelling Python `set.add`. -/
def setAdd (s : List Str) (x : Str) : List Str :=
  if x ∈ s then s else s ++ [x]

/-! ### Data model -/

/-- The ways a parse can abort: the two `exit()` calls, an `IndexError`
from an out-of-range list subscript, and a `KeyError` from `del` on a
missing key. -/
inductive ParseErr where
  /-- `exit()` in `EnumValue.__init__` when the value is empty. -/
  | exitNoValue
  /-- `exit()` in `MessageField.__init__` on an unhandled `@` tag. -/
  | exitUnknownMeta
  /-- Python `IndexError` (list index out of range). -/
  | indexError
  /-- Python `KeyError` (`del` of a missing key). -/
  | keyError
deriving DecidableEq, Repr

/-- One `name = value` constant declaration (class `EnumValue`). -/
structure Constant where
  name : Str
  type : Str
  value : Str
  comment : Option Str
  lineNumber : Nat
deriving DecidableEq, Repr

/-- One typed field of a message (class `MessageField`; the
back-reference to the owning message is represented by keeping the
enum dictionary in `Message` itself). -/
structure Field where
  name : Str
  type : Str
  comment : Option Str
  description : Option Str
  unit : Option Str
  enums : Option (List Str)
  minValue : Option Str
  maxValue : Option Str
  invalidValue : Option Str
  lineNumber : Nat
deriving DecidableEq, Repr

/-- An `Enum`'s state is its value dictionary; its name is the key it
is stored under in `Message.enums`. -/
abbrev EnumDict := List (Str × List (Str × Constant))

/-- One parsed schema file (class `UORBMessage`); file-system derived
attributes (`filename`, `msg_filename`, `output_file`) are outside the
parsing core and omitted. -/
structure Message where
  shortDescription : Str
  longDescription : Str
  fields : List Field
  enumValues : List (Str × Constant)
  enums : EnumDict
deriving DecidableEq, Repr

def emptyMessage : Message :=
  { shortDescription := [], longDescription := [], fields := [],
    enumValues := [], enums := [] }

/-- The fixed unit allow-list (`ALLOWED_UNITS`). -/
def ALLOWED_UNITS : List Str :=
  ["m", "m/s", "rad", "rad/s", "rpm", "V", "A", "mA", "mAh", "W", "dBm",
   "s", "ms", "us", "Ohm", "MB", "Kb/s"].map String.toList

/-! ### Annotation parser (`MessageField.__init__`, lines 48-85)

The trailing comment is matched against
`^((?:\[[^\]]*\]\s*)+)(.*)$`; when it matches, the bracketed tokens
are re-extracted with `\[(.*?)\]` and dispatched one by one. -/

/-- Scan to the first `]` (the bracket content matched by `[^\]]*`);
`none` when the bracket is never closed.  Returns the content and the
text after the `]`. -/
def scanB : Str → Option (Str × Str)
  | [] => none
  | c :: rest =>
    if c = ']' then some ([], rest)
    else (scanB rest).map (fun p => (c :: p.1, p.2))

/-- Greedily consume `(\[[^\]]*\]\s*)*`, returning the bracket
contents in order and the unconsumed remainder (the regex `(.*)`
group).  `fuel` only bounds the recursion; each step consumes at least
the `[` and `]` characters, so `fuel = length + 1` is always enough. -/
def scanGroupsF : Nat → Str → List Str × Str
  | 0, cs => ([], cs)
  | _ + 1, [] => ([], [])
  | f + 1, c :: cs =>
    if c = '[' then
      match scanB cs with
      | none => ([], c :: cs)
      | some (content, rest) =>
        let r := scanGroupsF f (rest.dropWhile isWS)
        (content :: r.1, r.2)
    else ([], c :: cs)

/-- The bracketed tokens at the head of a comment, with the free-text
remainder.  An empty token list means the regex did not match (the
comment does not begin with a closed bracket group). -/
def scanGroups (cs : Str) : List Str × Str :=
  scanGroupsF (cs.length + 1) cs

/-- The `@enum` tag prefix. -/
def tagEnum : Str := "@enum".toList

/-- The `@range` tag prefix. -/
def tagRange : Str := "@range".toList

/-- The `@invalid` tag prefix. -/
def tagInvalid : Str := "@invalid".toList

/-- The reserved `# TOPICS` line marker. -/
def topicsMarker : Str := "# TOPICS".toList

/-- Dispatch of a single bracketed token (lines 60-85): a unit, an
`@enum` tag list, an `@range`, an `@invalid`, or the fatal
unrecognised-metadata `exit()`.  Returns the updated field and enum
dictionary with the updated `invalid_units` diagnostics. -/
def processMetaItem (fld : Field) (enums : EnumDict) (diag : List Str)
    (item0 : Str) : Except ParseErr (Field × EnumDict) × List Str :=
  let item := pyStrip item0
  if startswith item ['@'] = false then
    -- a unit: stored unconditionally; allow-list failures are a diagnostic
    let diag' := if item ∈ ALLOWED_UNITS then diag else setAdd diag item
    (.ok ({ fld with unit := some item }, enums), diag')
  else if startswith item tagEnum then
    let parts := pySplit ' ' item
    let es := parts.tail
    let enums' := es.foldl
      (fun d n => if containsKey d n then d else d ++ [(n, [])]) enums
    (.ok ({ fld with enums := some es }, enums'), diag)
  else if startswith item tagRange then
    let parts := pySplit ',' (pyStrip (item.drop 6))
    match parts.get? 1 with
    | none => (.error .indexError, diag)   -- item[1] raises IndexError
    | some p1 =>
      (.ok ({ fld with minValue := some (pyStrip (parts.headD [])),
                       maxValue := some (pyStrip p1) }, enums), diag)
  else if startswith item tagInvalid then
    (.ok ({ fld with invalidValue := some (pyStrip (item.drop 8)) }, enums), diag)
  else
    (.error .exitUnknownMeta, diag)        -- WARNING + exit()

/-- Fold `processMetaItem` over the token list, stopping at the first
abort (in Python `exit()` terminates the process). -/
def processMetaItems (fld : Field) (enums : EnumDict) (diag : List Str) :
    List Str → Except ParseErr (Field × EnumDict) × List Str
  | [] => (.ok (fld, enums), diag)
  | item :: rest =>
    match processMetaItem fld enums diag item with
    | (.ok (fld', enums'), diag') => processMetaItems fld' enums' diag' rest
    | (.error e, diag') => (.error e, diag')

/-- `MessageField.__init__`: build the field from its comment,
creating missing parent enums lazily. -/
def mkMessageField (name type : Str) (comment : Option Str) (lineNumber : Nat)
    (enums : EnumDict) (diag : List Str) :
    Except ParseErr (Field × EnumDict) × List Str :=
  let fld : Field :=
    { name := name, type := type, comment := comment, description := comment,
      unit := none, enums := none, minValue := none, maxValue := none,
      invalidValue := none, lineNumber := lineNumber }
  match comment with
  | none => (.ok (fld, enums), diag)
  | some c =>
    if c = [] then (.ok (fld, enums), diag)   -- `if self.comment:` is falsy
    else
      match scanGroups c with
      | ([], _) => (.ok (fld, enums), diag)   -- regex did not match
      | (items, rest) =>
        processMetaItems { fld with description := some (pyStrip rest) }
          enums diag items

/-! ### Declaration classifier (`UORBMessage.handleField`, lines 228-253) -/

/-- The declaration part of a line: the text before the first `#`
(`line.split("#")[0].strip()`), or the whole stripped line. -/
def declPartOf (line : Str) : Str :=
  if line.contains '#' then pyStrip ((pySplit '#' line).headD [])
  else pyStrip line

/-- The trailing comment: the text after the *last* `#`
(`line.split("#")[-1].strip()`), absent when the line has no `#`. -/
def commentOf (line : Str) : Option Str :=
  if line.contains '#' then some (pyStrip ((pySplit '#' line).getLastD []))
  else none

/-- `handleField`: a declaration without `=` is a field, one with `=`
is a constant (`EnumValue`); the constant's value is
`fieldOrConstant.split("=")[-1]` and its type and name come from
splitting `split("=")[0]` on spaces. -/
def handleField (msg : Message) (line : Str) (lineNumber : Nat)
    (diag : List Str) : Except ParseErr Message × List Str :=
  let fieldOrConstant := declPartOf line
  let comment := commentOf line
  if fieldOrConstant.contains '=' = false then
    let parts := pySplit ' ' fieldOrConstant
    match parts.get? 1 with
    | none => (.error .indexError, diag)    -- field[1] raises IndexError
    | some n1 =>
      let type := pyStrip (parts.headD [])
      let name := pyStrip n1
      match mkMessageField name type comment lineNumber msg.enums diag with
      | (.ok (fld, enums'), diag') =>
        (.ok { msg with fields := msg.fields ++ [fld], enums := enums' }, diag')
      | (.error e, diag') => (.error e, diag')
  else
    let temp := pySplit '=' fieldOrConstant
    let value := temp.getLastD []
    let typeAndName := pySplit ' ' (temp.headD [])
    match typeAndName.get? 1 with
    | none => (.error .indexError, diag)    -- typeAndName[1] raises IndexError
    | some name =>
      let type := typeAndName.headD []
      -- EnumValue.__init__: strip name, type and value; empty value is fatal
      let const : Constant :=
        { name := pyStrip name, type := pyStrip type, value := pyStrip value,
          comment := comment, lineNumber := lineNumber }
      if const.value = [] then (.error .exitNoValue, diag)
      else (.ok { msg with enumValues := assocInsert msg.enumValues name const }, diag)

/-! ### Schema parser (`UORBMessage.parseFile`, lines 256-345) -/

/-- The per-line state of the classification state machine. -/
structure ParseState where
  found : Bool
  gettingInitialComments : Bool
  gettingFields : Bool
  headerLines : List Str
  msg : Message
deriving DecidableEq, Repr

def initState : ParseState :=
  { found := false, gettingInitialComments := false, gettingFields := false,
    headerLines := [], msg := emptyMessage }

/-- The `found_first_relevant_content` bookkeeping at the top of the
loop body (lines 273-280). -/
def advanceState (st : ParseState) (stripped : Str) : ParseState :=
  if st.found = false then
    { st with found := true,
              gettingInitialComments := startswith stripped ['#'],
              gettingFields := !(startswith stripped ['#']) }
  else st

/-- The `if gettingFields:` block (lines 289-305): skip blanks, the
`# TOPICS` marker and internal comments, otherwise classify the
declaration. -/
def fieldsBlock (st : ParseState) (diag : List Str) (lineNumber : Nat)
    (stripped : Str) : Except ParseErr ParseState × List Str :=
  if stripped = [] then (.ok st, diag)
  else if startswith stripped topicsMarker then (.ok st, diag)
  else if startswith stripped ['#'] then (.ok st, diag)  -- internal comment
  else
    match handleField st.msg stripped lineNumber diag with
    | (.ok msg', diag') => (.ok { st with msg := msg' }, diag')
    | (.error e, diag') => (.error e, diag')

/-- One iteration of the `for line_number, line in enumerate(...)` loop. -/
def parseLine (st : ParseState) (diag : List Str) (lineNumber : Nat)
    (rawLine : Str) : Except ParseErr ParseState × List Str :=
  let stripped := normWs rawLine
  if st.found = false && stripped = [] then (.ok st, diag)
  else if (advanceState st stripped).gettingInitialComments
      && startswith stripped ['#'] then
    (.ok { advanceState st stripped with
            headerLines := (advanceState st stripped).headerLines
              ++ [pyStrip (stripped.drop 1)] },
     diag)
  else
    fieldsBlock
      { advanceState st stripped with
          gettingInitialComments := false, gettingFields := true }
      diag lineNumber stripped

/-- One step of the short/long description post-processing loop
(lines 309-320), restructured into disjoint branches. -/
def summaryStep (st : Str × Str × Bool) (l : Str) : Str × Str × Bool :=
  if st.1 = [] && pyStrip l = [] then st
  else if st.2.2 = false then
    if pyStrip l = [] then (st.1, st.2.1, true)
    else (pyStrip (st.1 ++ ' ' :: l), st.2.1, st.2.2)
  else (st.1, st.2.1 ++ l ++ ['\n'], st.2.2)

/-- The header post-processing: `(shortDescription, longDescription)`
(the trailing `self.longDescription.strip()` on line 325 discards its
result, so the final newline survives). -/
def headerSummary (hs : List Str) : Str × Str :=
  ((hs.foldl summaryStep ([], [], false)).1,
   (hs.foldl summaryStep ([], [], false)).2.1)

/-- Join with a separator string (used with `[' ']` for the
space-joined short description). -/
def joinWith (sep : Str) : List Str → Str
  | [] => []
  | [x] => x
  | x :: y :: rest => x ++ sep ++ joinWith sep (y :: rest)

/-- Each line followed by a newline, concatenated (the accumulated
`longDescription`). -/
def joinLinesNL (xs : List Str) : Str :=
  (xs.map (fun l => l ++ ['\n'])).flatten

/-- The inner body of the enum association marking loops (lines
329-336): on a prefix match, copy the constant into the enum's value
dictionary and append its name to the removal list. -/
def markStepInner (eName : Str) (acc : List (Str × Constant) × List Str)
    (c : Str × Constant) : List (Str × Constant) × List Str :=
  if startswith c.1 eName then (assocInsert acc.1 c.1 c.2, acc.2 ++ [c.1])
  else acc

/-- The nested marking loops: for every enum (outer) and every loose
constant (inner), test the prefix heuristic.  Returns the updated enum
dictionary and the accumulated removal list. -/
def markPhase (enums : EnumDict) (loose : List (Str × Constant)) :
    EnumDict × List Str :=
  enums.foldl
    (fun acc e =>
      let inner := loose.foldl (markStepInner e.1) (e.2, acc.2)
      (acc.1 ++ [(e.1, inner.1)], inner.2))
    ([], [])

/-- The deletion loop (lines 338-339): `del self.enumValues[name]` for
each marked name; deleting a missing key raises `KeyError`. -/
def deletePhase (loose : List (Str × Constant)) :
    List Str → Except ParseErr (List (Str × Constant))
  | [] => .ok loose
  | n :: ns =>
    if containsKey loose n then deletePhase (assocErase loose n) ns
    else .error .keyError

/-- The complete enum association pass (lines 327-342). -/
def associationPass (msg : Message) : Except ParseErr Message :=
  match deletePhase msg.enumValues (markPhase msg.enums msg.enumValues).2 with
  | .ok loose' =>
    .ok { msg with enums := (markPhase msg.enums msg.enumValues).1,
                   enumValues := loose' }
  | .error e => .error e

/-- One step of the fold over the enumerated lines: a line is skipped
entirely once a fatal condition has occurred (in Python the process is
already gone). -/
def parseStep (acc : Except ParseErr ParseState × List Str) (p : Nat × Str) :
    Except ParseErr ParseState × List Str :=
  match acc.1 with
  | .error _ => acc
  | .ok st => parseLine st acc.2 (p.1 + 1) p.2

/-- `parseFile` on the file's lines: the line loop, then the header
post-processing, then the enum association pass.  The second
component is the final state of the process-wide `invalid_units` set. -/
def parseFile (lines : List Str) (diag : List Str) :
    Except ParseErr Message × List Str :=
  match lines.enum.foldl parseStep (.ok initState, diag) with
  | (.error e, d) => (.error e, d)
  | (.ok st, d) =>
    match associationPass
        { st.msg with
            shortDescription := (headerSummary st.headerLines).1,
            longDescription := (headerSummary st.headerLines).2 } with
    | .ok msg2 => (.ok msg2, d)
    | .error e => (.error e, d)

/-- The loose constants whose names prefix-match an enum name. -/
def matchedOf (eName : Str) (loose : List (Str × Constant)) :
    List (Str × Constant) :=
  loose.filter (fun c => startswith c.1 eName)

/-- Repeated dictionary assignment. -/
def insertAll (d : List (Str × Constant)) (cs : List (Str × Constant)) :
    List (Str × Constant) :=
  cs.foldl (fun d c => assocInsert d c.1 c.2) d

/-- How many of the model's containers hold a constant named `k`: the
loose mapping plus every enum value mapping. -/
def constantHolders (m : Message) (k : Str) : Nat :=
  (if containsKey m.enumValues k then 1 else 0)
    + (m.enums.filter (fun e => containsKey e.2 k)).length

/-! ### Projections and concrete inputs used by the claims -/

/-- The short description of a successfully parsed message. -/
def shortOf : Except ParseErr Message → Str
  | .ok m => m.shortDescription
  | .error _ => []

/-- The long description of a successfully parsed message. -/
def longOf : Except ParseErr Message → Str
  | .ok m => m.longDescription
  | .error _ => []

/-- The message accumulated by a successful line loop. -/
def msgOfState : Except ParseErr ParseState → Message
  | .ok st => st.msg
  | .error _ => emptyMessage

/-- A blank field, for exercising the annotation parser in isolation. -/
def fld0 : Field :=
  { name := [], type := [], comment := none, description := none,
    unit := none, enums := none, minValue := none, maxValue := none,
    invalidValue := none, lineNumber := 0 }

/-- The constant a constant declaration line parses to, given the name
component `n` its left side splits to. -/
def constantOfLine (line : Str) (n : Str) (k : Nat) : Constant :=
  { name := pyStrip n,
    type := pyStrip ((pySplit ' ' ((pySplit '=' (declPartOf line)).headD [])).headD []),
    value := pyStrip ((pySplit '=' (declPartOf line)).getLastD []),
    comment := commentOf line,
    lineNumber := k }

/-- A schema file on which two enum names (`STATUS` and `STATUS_O`)
are both prefixes of the constant `STATUS_OK`. -/
def c1cexLines : List Str :=
  ["uint8 f1 # [@enum STATUS] x",
   "uint8 f2 # [@enum STATUS_O] y",
   "uint8 STATUS_OK = 0"].map String.toList

/-- The enum dictionary the declaration pass builds for `c1cexLines`. -/
def c1cexEnums : EnumDict :=
  [("STATUS".toList, []), ("STATUS_O".toList, [])]

def c1cexConst : Constant :=
  { name := "STATUS_OK".toList, type := "uint8".toList,
    value := "0".toList, comment := none, lineNumber := 3 }

/-- The loose constant dictionary the declaration pass builds for
`c1cexLines`. -/
def c1cexLoose : List (Str × Constant) := [("STATUS_OK".toList, c1cexConst)]

/-- The declaration-pass state reached on `c1cexLines` (before the
association pass). -/
def c1cexFold : Except ParseErr ParseState :=
  (c1cexLines.enum.foldl parseStep (.ok initState, [])).1

/-- The message of the enum-association example of the specification:
one enum `STATUS` and loose constants `STATUS_OK`, `STATUS_FAIL`,
`OTHER_X`. -/
def c1witMsg : Message :=
  { emptyMessage with
      enums := [("STATUS".toList, [])],
      enumValues :=
        [("STATUS_OK".toList,
          { name := "STATUS_OK".toList, type := "uint8".toList,
            value := "0".toList, comment := none, lineNumber := 1 }),
         ("STATUS_FAIL".toList,
          { name := "STATUS_FAIL".toList, type := "uint8".toList,
            value := "1".toList, comment := none, lineNumber := 2 }),
         ("OTHER_X".toList,
          { name := "OTHER_X".toList, type := "uint8".toList,
            value := "2".toList, comment := none, lineNumber := 3 })] }

/-- A constant declaration whose value text itself contains `=`. -/
def c2line : Str := "uint8 X = a=b".toList

/-- What the code actually stores for `c2line`: the value is the text
after the last `=`. -/
def c2const : Constant :=
  { name := "X".toList, type := "uint8".toList, value := "b".toList,
    comment := none, lineNumber := 1 }

/-- A constant declaration whose name is empty after parsing. -/
def c3line : Str := "uint8 = 5".toList

/-- The constant the code stores for `c3line`, its name empty. -/
def c3const : Constant :=
  { name := [], type := "uint8".toList, value := "5".toList,
    comment := none, lineNumber := 1 }

/-- The header block of the round-trip example, as file lines. -/
def c4lines : List Str :=
  ["# Short one.", "#", "# Long line one.", "# Long line two."].map String.toList

/-- The same header block after the line loop strips the comment
markers. -/
def c4header : List Str :=
  ["Short one.", "", "Long line one.", "Long line two."].map String.toList

/-- The field declaration line of the classification example. -/
def c7line1 : Str := "uint8 status # [@enum STATUS] current status".toList

/-- The constant declaration line of the classification example. -/
def c7line2 : Str := "uint8 STATUS_OK = 0 # nominal".toList

/-- The field that `c7line1` classifies to. -/
def c7field : Field :=
  { name := "status".toList, type := "uint8".toList,
    comment := some "[@enum STATUS] current status".toList,
    description := some "current status".toList,
    unit := none, enums := some ["STATUS".toList],
    minValue := none, maxValue := none, invalidValue := none,
    lineNumber := 1 }

/-- The constant that `c7line2` classifies to. -/
def c7const : Constant :=
  { name := "STATUS_OK".toList, type := "uint8".toList,
    value := "0".toList, comment := some "nominal".toList, lineNumber := 2 }

/-- A message already holding a constant `X`, for the
duplicate-declaration claim. -/
def c10msg : Message :=
  { emptyMessage with
      enumValues :=
        [("X".toList,
          { name := "X".toList, type := "uint8".toList, value := "1".toList,
            comment := none, lineNumber := 1 })] }

/-- A second declaration of `X` with a different value and comment. -/
def c10line : Str := "uint8 X = 2 # two".toList

/-! ### Lemmas about `pySplit` -/

theorem pySplit_nil (sep : Char) : pySplit sep [] = [[]] := rfl

theorem pySplit_cons (sep c : Char) (rest : Str) :
    pySplit sep (c :: rest) =
      if c = sep then [] :: pySplit sep rest
      else (pySplit sep rest).modifyHead (fun p => c :: p) := rfl

theorem length_pySplit (sep : Char) :
    ∀ l : Str, (pySplit sep l).length = l.count sep + 1
  | [] => rfl
  | c :: rest => by
    have ih := length_pySplit sep rest
    rw [pySplit_cons]
    by_cases hc : c = sep
    · simp [hc, List.count_cons, ih]
    · simp [hc, List.count_cons, List.length_modifyHead, ih, beq_iff_eq]

theorem pySplit_ne_nil (sep : Char) (l : Str) : pySplit sep l ≠ [] := by
  intro h
  have := length_pySplit sep l
  rw [h] at this
  simp at this

theorem pySplit_of_not_mem {sep : Char} : ∀ {l : Str}, sep ∉ l → pySplit sep l = [l]
  | [], _ => rfl
  | c :: rest, h => by
    have hc : ¬(c = sep) := fun he => h (he ▸ List.mem_cons_self c rest)
    have ih := pySplit_of_not_mem (fun hm => h (List.mem_cons_of_mem c hm))
    rw [pySplit_cons, if_neg hc, ih, List.modifyHead_cons]

theorem pySplit_append {sep : Char} :
    ∀ {a : Str} (b : Str), sep ∉ a → pySplit sep (a ++ sep :: b) = a :: pySplit sep b
  | [], b, _ => by
    rw [List.nil_append, pySplit_cons, if_pos rfl]
  | c :: a', b, h => by
    have hc : ¬(c = sep) := fun he => h (he ▸ List.mem_cons_self c a')
    have ih := pySplit_append (a := a') b (fun hm => h (List.mem_cons_of_mem c hm))
    rw [List.cons_append, pySplit_cons, if_neg hc, ih, List.modifyHead_cons]

theorem getLastD_of_ne_nil {α : Type} {l : List α} (h : l ≠ []) (d₁ d₂ : α) :
    l.getLastD d₁ = l.getLastD d₂ := by
  cases l with
  | nil => exact absurd rfl h
  | cons x xs => rw [List.getLastD_cons, List.getLastD_cons]

theorem getLastD_pySplit {sep : Char} {b : Str} (hb : sep ∉ b) :
    ∀ a : Str, (pySplit sep (a ++ sep :: b)).getLastD [] = b
  | [] => by
    rw [pySplit_append b (List.not_mem_nil sep), List.getLastD_cons,
      pySplit_of_not_mem hb]
    rfl
  | c :: a' => by
    have ih := getLastD_pySplit hb a'
    have hlen := length_pySplit sep (a' ++ sep :: b)
    have hcnt : 0 < (a' ++ sep :: b).count sep := by
      rw [List.count_pos_iff]
      exact List.mem_append_right a' (List.mem_cons_self sep b)
    show (pySplit sep (c :: (a' ++ sep :: b))).getLastD [] = b
    rw [pySplit_cons]
    cases h : pySplit sep (a' ++ sep :: b) with
    | nil => exact absurd h (pySplit_ne_nil sep _)
    | cons p ps =>
      rw [h] at ih hlen
      have hps : ps ≠ [] := by
        intro hnil
        rw [hnil] at hlen
        simp only [List.length_cons, List.length_nil] at hlen
        omega
      by_cases hc : c = sep
      · rw [if_pos hc, List.getLastD_cons]
        exact ih
      · rw [if_neg hc, List.modifyHead_cons, List.getLastD_cons]
        rw [getLastD_of_ne_nil hps (c :: p) p]
        rw [List.getLastD_cons] at ih
        exact ih

theorem headD_pySplit {sep : Char} {c : Str} (d : Str) (hc : sep ∉ c) :
    (pySplit sep (c ++ sep :: d)).headD [] = c := by
  rw [pySplit_append d hc]
  rfl

/-! ### Lemmas about `pyStrip` -/

theorem dropWhile_eq_self_of_length {α : Type} {p : α → Bool} {l : List α}
    (h : (l.dropWhile p).length = l.length) : l.dropWhile p = l :=
  (List.dropWhile_suffix p).eq_of_length h

theorem length_dropWhile_le' {α : Type} (p : α → Bool) (l : List α) :
    (l.dropWhile p).length ≤ l.length :=
  (List.dropWhile_suffix p).sublist.length_le

theorem length_dropTrailWS_le (l : Str) : (dropTrailWS l).length ≤ l.length := by
  unfold dropTrailWS
  rw [List.length_reverse]
  have h := length_dropWhile_le' isWS l.reverse
  rw [List.length_reverse] at h
  exact h

theorem pyStrip_eq_self_dropWhile {l : Str} (h : pyStrip l = l) :
    l.dropWhile isWS = l := by
  have h1 : (pyStrip l).length = l.length := by rw [h]
  have h2 : (pyStrip l).length ≤ (l.dropWhile isWS).length :=
    length_dropTrailWS_le _
  have h3 : (l.dropWhile isWS).length ≤ l.length := length_dropWhile_le' isWS l
  exact dropWhile_eq_self_of_length (Nat.le_antisymm h3 (h1 ▸ h2))

theorem pyStrip_eq_self_dropTrail {l : Str} (h : pyStrip l = l) :
    dropTrailWS l = l := by
  have hd := pyStrip_eq_self_dropWhile h
  unfold pyStrip at h
  rw [hd] at h
  exact h

theorem dropTrail_rev {l : Str} (h : dropTrailWS l = l) :
    l.reverse.dropWhile isWS = l.reverse := by
  unfold dropTrailWS at h
  rw [← List.reverse_inj]
  simp [h]

theorem head_not_of_dropWhile_cons {α : Type} {p : α → Bool} {x : α} {xs : List α}
    (h : List.dropWhile p (x :: xs) = x :: xs) : p x = false := by
  cases hpx : p x with
  | false => rfl
  | true =>
    exfalso
    rw [List.dropWhile_cons, if_pos hpx] at h
    have hlen := congrArg List.length h
    have hle := length_dropWhile_le' p xs
    simp at hlen
    omega

theorem dropWhile_append_eq {p : Char → Bool} {xs : Str} (ys : Str)
    (h : xs.dropWhile p = xs) (hx : xs ≠ []) :
    (xs ++ ys).dropWhile p = xs ++ ys := by
  cases xs with
  | nil => exact absurd rfl hx
  | cons x xs' =>
    have hpx := head_not_of_dropWhile_cons h
    simp [List.dropWhile_cons, hpx]

theorem pyStrip_glue {a b : Str} (ha : pyStrip a = a) (hb : pyStrip b = b)
    (ha0 : a ≠ []) (hb0 : b ≠ []) :
    pyStrip (a ++ ' ' :: b) = a ++ ' ' :: b := by
  have hda : a.dropWhile isWS = a := pyStrip_eq_self_dropWhile ha
  have hdb : b.reverse.dropWhile isWS = b.reverse :=
    dropTrail_rev (pyStrip_eq_self_dropTrail hb)
  have hbr : b.reverse ≠ [] := by simpa using hb0
  unfold pyStrip
  rw [dropWhile_append_eq (' ' :: b) hda ha0]
  unfold dropTrailWS
  have hrev : (a ++ ' ' :: b).reverse = b.reverse ++ ' ' :: a.reverse := by
    simp
  rw [hrev, dropWhile_append_eq (' ' :: a.reverse) hdb hbr, ← hrev,
    List.reverse_reverse]

theorem pyStrip_space_cons {b : Str} (hb : pyStrip b = b) :
    pyStrip (' ' :: b) = b := by
  have hdb := pyStrip_eq_self_dropWhile hb
  unfold pyStrip
  rw [List.dropWhile_cons]
  have : isWS ' ' = true := rfl
  rw [this, if_pos rfl, hdb]
  exact pyStrip_eq_self_dropTrail hb

/-! ### Lemmas about `startswith` -/

theorem startswith_iff_append {s p : Str} :
    startswith s p = true ↔ ∃ t, s = p ++ t := by
  induction p generalizing s with
  | nil => simp [startswith]
  | cons c cs ih =>
    cases s with
    | nil => simp [startswith]
    | cons x xs =>
      simp only [startswith, Bool.and_eq_true, decide_eq_true_eq, ih,
        List.cons_append, List.cons.injEq]
      constructor
      · rintro ⟨rfl, t, rfl⟩; exact ⟨t, rfl, rfl⟩
      · rintro ⟨t, rfl, rfl⟩; exact ⟨rfl, t, rfl⟩

theorem startswith_append_of_le {q : Str} :
    ∀ {p : Str} (t : Str), q.length ≤ p.length →
      startswith (p ++ t) q = startswith p q := by
  induction q with
  | nil => intro p t _; simp [startswith]
  | cons c cs ih =>
    intro p t hlen
    cases p with
    | nil => simp at hlen
    | cons x xs =>
      show startswith (x :: (xs ++ t)) (c :: cs) = startswith (x :: xs) (c :: cs)
      simp only [startswith]
      rw [ih t (Nat.le_of_succ_le_succ hlen)]

/-! ### Lemmas about the association-list dictionaries -/

theorem containsKey_iff_exists {α : Type} {m : List (Str × α)} {k : Str} :
    containsKey m k = true ↔ ∃ v, (k, v) ∈ m := by
  induction m with
  | nil => simp [containsKey, lookupKey]
  | cons p rest ih =>
    obtain ⟨k', v'⟩ := p
    by_cases hp : k' = k
    · subst hp
      constructor
      · intro _
        exact ⟨v', List.mem_cons_self _ _⟩
      · intro _
        show (if (k', v').1 = k' then some v' else lookupKey rest k').isSome = true
        rw [if_pos rfl]
        rfl
    · have hstep : containsKey ((k', v') :: rest) k = containsKey rest k := by
        show (if (k', v').1 = k then some v' else lookupKey rest k).isSome = _
        rw [if_neg hp]
        rfl
      rw [hstep, ih]
      constructor
      · rintro ⟨v, hv⟩
        exact ⟨v, List.mem_cons_of_mem _ hv⟩
      · rintro ⟨v, hv⟩
        rcases List.mem_cons.1 hv with he | hm
        · exact absurd (congrArg Prod.fst he).symm hp
        · exact ⟨v, hm⟩

theorem lookupKey_map_update {α : Type} {m : List (Str × α)} {k : Str} (v : α)
    (h : containsKey m k = true) :
    lookupKey (m.map (fun p => if p.1 = k then (k, v) else p)) k = some v := by
  induction m with
  | nil => simp [containsKey, lookupKey] at h
  | cons p rest ih =>
    by_cases hp : p.1 = k
    · simp [lookupKey, hp]
    · simp only [containsKey, lookupKey, if_neg hp] at h
      simp only [List.map_cons, if_neg hp, lookupKey, if_neg hp]
      exact ih h

theorem lookupKey_append_self {α : Type} {m : List (Str × α)} {k : Str} (v : α)
    (h : containsKey m k = false) :
    lookupKey (m ++ [(k, v)]) k = some v := by
  induction m with
  | nil => simp [lookupKey]
  | cons p rest ih =>
    by_cases hp : p.1 = k
    · simp [containsKey, lookupKey, hp] at h
    · simp only [containsKey, lookupKey, if_neg hp] at h
      simp only [List.cons_append, lookupKey, if_neg hp]
      exact ih h

theorem lookupKey_assocInsert_self {α : Type} (m : List (Str × α)) (k : Str) (v : α) :
    lookupKey (assocInsert m k v) k = some v := by
  unfold assocInsert
  by_cases h : containsKey m k = true
  · rw [if_pos h]; exact lookupKey_map_update v h
  · rw [if_neg h]
    exact lookupKey_append_self v (Bool.not_eq_true _ ▸ by simpa using h)

theorem keys_assocInsert_of_containsKey {α : Type} {m : List (Str × α)} {k : Str}
    (v : α) (h : containsKey m k = true) :
    keys (assocInsert m k v) = keys m := by
  unfold assocInsert keys
  rw [if_pos h, List.map_map]
  apply List.map_congr_left
  intro p _
  by_cases hp : p.1 = k <;> simp [hp]

/-! ### The header post-processing characterised
(`shortDescription` is the space-join of the non-blank run,
`longDescription` the newline-join of what follows the separator). -/

theorem joinWith_glue (sep a l : Str) (r : List Str) :
    joinWith sep ((a ++ sep ++ l) :: r) = a ++ sep ++ joinWith sep (l :: r) := by
  cases r with
  | nil => rfl
  | cons z zs =>
    show (a ++ sep ++ l) ++ sep ++ joinWith sep (z :: zs)
        = a ++ sep ++ (l ++ sep ++ joinWith sep (z :: zs))
    simp [List.append_assoc]

theorem summaryStep_long {s lg : Str} (l : Str) (hs0 : s ≠ []) :
    summaryStep (s, lg, true) l = (s, lg ++ l ++ ['\n'], true) := by
  simp [summaryStep, hs0]

theorem foldl_summary_long (ls : List Str) (s : Str) (hs0 : s ≠ []) :
    ∀ lg : Str, ls.foldl summaryStep (s, lg, true) = (s, lg ++ joinLinesNL ls, true) := by
  induction ls with
  | nil => intro lg; simp [joinLinesNL]
  | cons l ls ih =>
    intro lg
    rw [List.foldl_cons, summaryStep_long l hs0, ih]
    simp [joinLinesNL, List.append_assoc]

theorem summaryStep_blank {s lg : Str} {l : Str} (hs0 : s ≠ [])
    (hl : pyStrip l = []) : summaryStep (s, lg, false) l = (s, lg, true) := by
  simp [summaryStep, hs0, hl]

theorem summaryStep_text {s lg : Str} {l : Str} (hl : pyStrip l = l)
    (hl0 : l ≠ []) :
    summaryStep (s, lg, false) l = (pyStrip (s ++ ' ' :: l), lg, false) := by
  simp [summaryStep, hl, hl0]

/-- The main induction: from a non-empty trimmed accumulator with the
long part still off, the fold space-joins the non-blank run and
newline-joins what comes after the first blank line. -/
theorem foldl_summary_main (rest : List Str) :
    (∀ l ∈ rest, pyStrip l = l) → ∀ s : Str, pyStrip s = s → s ≠ [] →
      (rest.foldl summaryStep (s, [], false)).1
          = joinWith [' '] (s :: rest.takeWhile (fun l => decide (l ≠ [])))
      ∧ (rest.foldl summaryStep (s, [], false)).2.1
          = joinLinesNL ((rest.drop (rest.takeWhile (fun l => decide (l ≠ []))).length).tail) := by
  induction rest with
  | nil =>
    intro _ s _ _
    exact ⟨rfl, rfl⟩
  | cons l rest ih =>
    intro hall s hs hs0
    by_cases hl0 : l = []
    · subst hl0
      rw [List.foldl_cons,
        summaryStep_blank hs0 (show pyStrip ([] : Str) = [] from rfl),
        foldl_summary_long rest s hs0 []]
      constructor
      · simp [joinWith, List.takeWhile_cons]
      · simp [List.takeWhile_cons]
    · have hl : pyStrip l = l := hall l (List.mem_cons_self l rest)
      have hs' : pyStrip (s ++ ' ' :: l) = s ++ ' ' :: l :=
        pyStrip_glue hs hl hs0 hl0
      rw [List.foldl_cons, summaryStep_text hl hl0, hs']
      obtain ⟨ih1, ih2⟩ := ih (fun x hx => hall x (List.mem_cons_of_mem l hx))
        (s ++ ' ' :: l) hs' (by simp)
      have htake : (l :: rest).takeWhile (fun l => decide (l ≠ []))
          = l :: rest.takeWhile (fun l => decide (l ≠ [])) := by
        rw [List.takeWhile_cons, if_pos (by simpa using hl0)]
      constructor
      · rw [ih1, htake]
        have hglue : s ++ ' ' :: l = s ++ [' '] ++ l := by simp
        rw [hglue, joinWith_glue]
        rfl
      · rw [ih2, htake]
        simp [List.length_cons]

/-- Leading blank lines (while the short description is still empty)
are skipped. -/
theorem foldl_summary_blanks (bs : List Str) (h : ∀ l ∈ bs, l = []) :
    bs.foldl summaryStep ([], [], false) = ([], [], false) := by
  induction bs with
  | nil => rfl
  | cons b bs ih =>
    have hb : b = [] := h b (List.mem_cons_self b bs)
    subst hb
    rw [List.foldl_cons]
    have hstep : summaryStep ([], [], false) [] = ([], [], false) := rfl
    rw [hstep]
    exact ih (fun l hl => h l (List.mem_cons_of_mem ([] : Str) hl))

theorem dropWhile_head_not {α : Type} {p : α → Bool} :
    ∀ {l : List α} {x : α} {xs : List α}, l.dropWhile p = x :: xs → p x = false := by
  intro l
  induction l with
  | nil => intro x xs h; simp [List.dropWhile] at h
  | cons c cs ih =>
    intro x xs h
    rw [List.dropWhile_cons] at h
    split at h
    · exact ih h
    · next hc =>
      injection h with h1 _
      subst h1
      simpa using hc

/-- The full characterisation of `headerSummary` on trimmed header lines:
drop leading blanks, space-join the first non-blank run into the short
description, skip the blank separator, newline-join the rest. -/
theorem headerSummary_spec (hs : List Str) (h : ∀ l ∈ hs, pyStrip l = l) :
    headerSummary hs =
      (joinWith [' ']
         ((hs.dropWhile (fun l => decide (l = []))).takeWhile (fun l => decide (l ≠ []))),
       joinLinesNL
         (((hs.dropWhile (fun l => decide (l = []))).drop
            ((hs.dropWhile (fun l => decide (l = []))).takeWhile (fun l => decide (l ≠ []))).length).tail)) := by
  have hfold : hs.foldl summaryStep ([], [], false)
      = (hs.dropWhile (fun l => decide (l = []))).foldl summaryStep ([], [], false) := by
    conv_lhs => rw [← List.takeWhile_append_dropWhile (fun l => decide (l = [])) hs]
    rw [List.foldl_append,
      foldl_summary_blanks _ (fun l hl => by simpa using (List.mem_takeWhile_imp hl))]
  have hsub : ∀ l ∈ hs.dropWhile (fun l => decide (l = [])), pyStrip l = l :=
    fun l hl => h l ((List.dropWhile_suffix _).sublist.subset hl)
  unfold headerSummary
  rw [hfold]
  cases hd : hs.dropWhile (fun l => decide (l = [])) with
  | nil => exact Prod.ext rfl rfl
  | cons l0 rest =>
    rw [hd] at hsub
    have hl0 : l0 ≠ [] := by
      have := dropWhile_head_not hd
      simpa using this
    have hl0t : pyStrip l0 = l0 := hsub l0 (List.mem_cons_self l0 rest)
    have hstep : summaryStep ([], [], false) l0 = (l0, [], false) := by
      rw [summaryStep_text hl0t hl0, List.nil_append, pyStrip_space_cons hl0t]
    rw [List.foldl_cons, hstep]
    obtain ⟨h1, h2⟩ := foldl_summary_main rest
      (fun x hx => hsub x (List.mem_cons_of_mem l0 hx)) l0 hl0t hl0
    have htake : (l0 :: rest).takeWhile (fun l => decide (l ≠ []))
        = l0 :: rest.takeWhile (fun l => decide (l ≠ [])) := by
      rw [List.takeWhile_cons, if_pos (by simpa using hl0)]
    rw [h1, h2, htake]
    simp [List.length_cons]

/-! ### The enum association pass characterised -/

theorem foldl_markStepInner (eName : Str) (loose : List (Str × Constant)) :
    ∀ (d : List (Str × Constant)) (r : List Str),
      loose.foldl (markStepInner eName) (d, r)
        = (insertAll d (matchedOf eName loose),
           r ++ (matchedOf eName loose).map (·.1)) := by
  induction loose with
  | nil => intro d r; simp [insertAll, matchedOf]
  | cons c cs ih =>
    intro d r
    rw [List.foldl_cons]
    by_cases h : startswith c.1 eName = true
    · have hstep : markStepInner eName (d, r) c
          = (assocInsert d c.1 c.2, r ++ [c.1]) := by
        unfold markStepInner
        rw [if_pos h]
      rw [hstep, ih]
      have hm : matchedOf eName (c :: cs) = c :: matchedOf eName cs := by
        unfold matchedOf
        rw [List.filter_cons, if_pos h]
      rw [hm]
      exact Prod.ext rfl (by simp)
    · have hstep : markStepInner eName (d, r) c = (d, r) := by
        unfold markStepInner
        rw [if_neg h]
      rw [hstep, ih]
      have hm : matchedOf eName (c :: cs) = matchedOf eName cs := by
        unfold matchedOf
        rw [List.filter_cons, if_neg h]
      rw [hm]

theorem markPhase_spec (enums : EnumDict) (loose : List (Str × Constant)) :
    markPhase enums loose
      = (enums.map (fun e => (e.1, insertAll e.2 (matchedOf e.1 loose))),
         (enums.map (fun e => (matchedOf e.1 loose).map (·.1))).flatten) := by
  suffices hgen : ∀ (accL : EnumDict) (accR : List Str),
      enums.foldl
        (fun acc e =>
          let inner := loose.foldl (markStepInner e.1) (e.2, acc.2)
          (acc.1 ++ [(e.1, inner.1)], inner.2))
        (accL, accR)
      = (accL ++ enums.map (fun e => (e.1, insertAll e.2 (matchedOf e.1 loose))),
         accR ++ (enums.map (fun e => (matchedOf e.1 loose).map (·.1))).flatten) by
    have h := hgen [] []
    unfold markPhase
    rw [h]
    simp
  induction enums with
  | nil => intro accL accR; simp
  | cons e es ih =>
    intro accL accR
    rw [List.foldl_cons]
    show es.foldl _ (accL ++ [(e.1, (loose.foldl (markStepInner e.1) (e.2, accR)).1)],
        (loose.foldl (markStepInner e.1) (e.2, accR)).2) = _
    rw [foldl_markStepInner e.1 loose e.2 accR, ih]
    simp [List.append_assoc]

theorem containsKey_append {α : Type} (m₁ m₂ : List (Str × α)) (k : Str) :
    containsKey (m₁ ++ m₂) k = (containsKey m₁ k || containsKey m₂ k) := by
  induction m₁ with
  | nil => simp [containsKey, lookupKey]
  | cons p rest ih =>
    by_cases hp : p.1 = k
    · show (if p.1 = k then some p.2 else lookupKey (rest ++ m₂) k).isSome
        = ((if p.1 = k then some p.2 else lookupKey rest k).isSome || _)
      rw [if_pos hp, if_pos hp]
      rfl
    · show (if p.1 = k then some p.2 else lookupKey (rest ++ m₂) k).isSome
        = ((if p.1 = k then some p.2 else lookupKey rest k).isSome || _)
      rw [if_neg hp, if_neg hp]
      exact ih

theorem insertAll_of_disjoint :
    ∀ (cs d : List (Str × Constant)),
      (∀ k ∈ keys cs, containsKey d k = false) → (keys cs).Nodup →
      insertAll d cs = d ++ cs := by
  intro cs
  induction cs with
  | nil => intro d _ _; simp [insertAll]
  | cons c cs ih =>
    intro d hdisj hnd
    have hc : containsKey d c.1 = false :=
      hdisj c.1 (List.mem_cons_self c.1 _)
    have hstep : insertAll d (c :: cs) = insertAll (d ++ [c]) cs := by
      unfold insertAll
      rw [List.foldl_cons]
      have : assocInsert d c.1 c.2 = d ++ [c] := by
        unfold assocInsert
        rw [if_neg (by rw [hc]; exact Bool.false_ne_true)]
      rw [this]
    rw [hstep, ih (d ++ [c])]
    · simp
    · intro k hk
      rw [containsKey_append]
      have h1 : containsKey d k = false := hdisj k (List.mem_cons_of_mem c.1 hk)
      have h2 : containsKey [c] k = false := by
        have hne : ¬(c.1 = k) := by
          intro he
          have : c.1 ∈ keys cs := he ▸ hk
          exact (List.nodup_cons.1 hnd).1 this
        show (if c.1 = k then some c.2 else lookupKey [] k).isSome = false
        rw [if_neg hne]
        rfl
      rw [h1, h2]
      rfl
    · exact (List.nodup_cons.1 hnd).2

theorem keys_matchedOf_sublist (eName : Str) (loose : List (Str × Constant)) :
    (keys (matchedOf eName loose)).Sublist (keys loose) := by
  unfold keys matchedOf
  exact List.Sublist.map (·.1) (List.filter_sublist loose)

theorem assocErase_eq_filter {α : Type} (m : List (Str × α)) (k : Str) :
    assocErase m k = m.filter (fun p => decide (p.1 ≠ k)) := rfl

theorem containsKey_filter_of_mem {α : Type} {m : List (Str × α)} {k : Str}
    {p : Str × α → Bool} (v : α) (hv : (k, v) ∈ m) (hp : p (k, v) = true) :
    containsKey (m.filter p) k = true :=
  containsKey_iff_exists.2 ⟨v, List.mem_filter.2 ⟨hv, hp⟩⟩

theorem deletePhase_spec :
    ∀ (ns : List Str) (loose : List (Str × Constant)),
      ns.Nodup → (∀ n ∈ ns, containsKey loose n = true) →
      deletePhase loose ns = .ok (loose.filter (fun c => decide (c.1 ∉ ns))) := by
  intro ns
  induction ns with
  | nil =>
    intro loose _ _
    show Except.ok loose = _
    rw [List.filter_eq_self.2 (fun a _ => by simp)]
  | cons n ns ih =>
    intro loose hnd hall
    show (if containsKey loose n = true then deletePhase (assocErase loose n) ns
          else .error .keyError) = _
    rw [if_pos (hall n (List.mem_cons_self n ns))]
    rw [ih (assocErase loose n) (List.nodup_cons.1 hnd).2]
    · rw [assocErase_eq_filter, List.filter_filter]
      have hpt : ∀ c ∈ loose,
          (decide (c.1 ∉ ns) && decide (c.1 ≠ n)) = decide (c.1 ∉ n :: ns) := by
        intro c _
        by_cases h1 : c.1 = n <;> by_cases h2 : c.1 ∈ ns <;> simp [h1, h2]
      rw [List.filter_congr hpt]
    · intro m hm
      have hmn : ¬(m = n) := by
        intro he
        exact (List.nodup_cons.1 hnd).1 (he ▸ hm)
      obtain ⟨v, hv⟩ := containsKey_iff_exists.1 (hall m (List.mem_cons_of_mem n hm))
      exact containsKey_filter_of_mem v hv (by simp [hmn])

theorem mem_keys_matchedOf {n eN : Str} {loose : List (Str × Constant)} :
    n ∈ (matchedOf eN loose).map (·.1)
      ↔ ∃ c ∈ loose, c.1 = n ∧ startswith n eN = true := by
  unfold matchedOf
  simp only [List.mem_map, List.mem_filter]
  constructor
  · rintro ⟨c, ⟨hc, hs⟩, rfl⟩
    exact ⟨c, hc, rfl, hs⟩
  · rintro ⟨c, hc, rfl, hs⟩
    exact ⟨c, ⟨hc, hs⟩, rfl⟩

theorem pairwise_disjoint_matched (loose : List (Str × Constant)) :
    ∀ enums : EnumDict,
      (∀ k : Str, (∃ c ∈ loose, c.1 = k) →
        enums.countP (fun e => startswith k e.1) ≤ 1) →
      List.Pairwise (fun e₁ e₂ =>
        List.Disjoint ((matchedOf e₁.1 loose).map (·.1))
          ((matchedOf e₂.1 loose).map (·.1))) enums := by
  intro enums
  induction enums with
  | nil => intro _; exact List.Pairwise.nil
  | cons e es ih =>
    intro hcnt
    rw [List.pairwise_cons]
    constructor
    · intro e' he'
      intro n hn hn'
      obtain ⟨c, hc, rfl, hse⟩ := mem_keys_matchedOf.1 hn
      obtain ⟨c', _, he, hse'⟩ := mem_keys_matchedOf.1 hn'
      have h1 := hcnt c.1 ⟨c, hc, rfl⟩
      rw [List.countP_cons, if_pos hse] at h1
      have h2 : 0 < es.countP (fun x => startswith c.1 x.1) :=
        List.countP_pos_iff.2 ⟨e', he', hse'⟩
      omega
    · refine ih (fun k hk => ?_)
      have := hcnt k hk
      rw [List.countP_cons] at this
      omega

theorem markPhase_removals_nodup (enums : EnumDict) (loose : List (Str × Constant))
    (H1 : (keys loose).Nodup)
    (H4 : ∀ c ∈ loose, enums.countP (fun e => startswith c.1 e.1) ≤ 1) :
    (markPhase enums loose).2.Nodup := by
  rw [markPhase_spec]
  rw [List.nodup_flatten]
  constructor
  · intro l hl
    obtain ⟨e, _, rfl⟩ := List.mem_map.1 hl
    exact (keys_matchedOf_sublist e.1 loose).nodup H1
  · rw [List.pairwise_map]
    apply pairwise_disjoint_matched loose enums
    rintro k ⟨c, hc, rfl⟩
    exact H4 c hc

theorem containsKey_matchedOf {c : Str × Constant} {loose : List (Str × Constant)}
    (hc : c ∈ loose) (eN : Str) :
    containsKey (matchedOf eN loose) c.1 = startswith c.1 eN := by
  cases hs : startswith c.1 eN with
  | true =>
    exact containsKey_filter_of_mem c.2 hc hs
  | false =>
    cases hck : containsKey (matchedOf eN loose) c.1 with
    | false => rfl
    | true =>
      exfalso
      obtain ⟨v, hv⟩ := containsKey_iff_exists.1 hck
      have hmem := List.mem_filter.1 hv
      have : startswith c.1 eN = true := hmem.2
      rw [hs] at this
      exact Bool.false_ne_true this

theorem markPhase_enums_spec (enums : EnumDict) (loose : List (Str × Constant))
    (H1 : (keys loose).Nodup)
    (H3 : ∀ e ∈ enums, e.2 = ([] : List (Str × Constant))) :
    (markPhase enums loose).1 = enums.map (fun e => (e.1, matchedOf e.1 loose)) := by
  rw [markPhase_spec]
  apply List.map_congr_left
  intro e he
  rw [H3 e he,
    insertAll_of_disjoint _ [] (fun k _ => rfl)
      ((keys_matchedOf_sublist e.1 loose).nodup H1),
    List.nil_append]

theorem mem_markPhase_removals {enums : EnumDict} {loose : List (Str × Constant)}
    {n : Str} :
    n ∈ (markPhase enums loose).2
      ↔ ∃ e ∈ enums, ∃ c ∈ loose, c.1 = n ∧ startswith n e.1 = true := by
  rw [markPhase_spec]
  simp only [List.mem_flatten, List.mem_map]
  constructor
  · rintro ⟨l, ⟨e, he, rfl⟩, hn⟩
    exact ⟨e, he, mem_keys_matchedOf.1 hn⟩
  · rintro ⟨e, he, hc⟩
    exact ⟨(matchedOf e.1 loose).map (·.1), ⟨e, he, rfl⟩, mem_keys_matchedOf.2 hc⟩

/-- The association pass, characterised under the hypotheses that hold
at the call site except the double-prefix one: loose constant names are
unique (they key a dictionary), the enum value mappings are still empty
(they are populated only by association), and no constant name is
prefix-matched by more than one enum.  Then the pass completes, the
removal list is duplicate-free with every name deletable, and every
constant ends up held in exactly one place. -/
theorem associationPass_spec (msg : Message)
    (H1 : (keys msg.enumValues).Nodup)
    (H3 : ∀ e ∈ msg.enums, e.2 = ([] : List (Str × Constant)))
    (H4 : ∀ c ∈ msg.enumValues,
      msg.enums.countP (fun e => startswith c.1 e.1) ≤ 1) :
    ∃ msg', associationPass msg = .ok msg'
      ∧ msg'.enums = msg.enums.map (fun e => (e.1, matchedOf e.1 msg.enumValues))
      ∧ msg'.enumValues = msg.enumValues.filter
          (fun c => decide (c.1 ∉ (markPhase msg.enums msg.enumValues).2))
      ∧ (markPhase msg.enums msg.enumValues).2.Nodup
      ∧ (∀ n ∈ (markPhase msg.enums msg.enumValues).2,
          containsKey msg.enumValues n = true)
      ∧ (∀ c ∈ msg.enumValues, constantHolders msg' c.1 = 1) := by
  have hnodup := markPhase_removals_nodup msg.enums msg.enumValues H1 H4
  have hpresent : ∀ n ∈ (markPhase msg.enums msg.enumValues).2,
      containsKey msg.enumValues n = true := by
    intro n hn
    obtain ⟨e, _, c, hc, rfl, _⟩ := mem_markPhase_removals.1 hn
    exact containsKey_iff_exists.2 ⟨c.2, hc⟩
  have hdel := deletePhase_spec (markPhase msg.enums msg.enumValues).2
    msg.enumValues hnodup hpresent
  refine ⟨{ msg with
      enums := (markPhase msg.enums msg.enumValues).1,
      enumValues := msg.enumValues.filter
        (fun c => decide (c.1 ∉ (markPhase msg.enums msg.enumValues).2)) }, ?_,
    ?_, rfl, hnodup, hpresent, ?_⟩
  · unfold associationPass
    rw [hdel]
  · exact markPhase_enums_spec msg.enums msg.enumValues H1 H3
  · intro c hc
    unfold constantHolders
    have henums : (markPhase msg.enums msg.enumValues).1
        = msg.enums.map (fun e => (e.1, matchedOf e.1 msg.enumValues)) :=
      markPhase_enums_spec msg.enums msg.enumValues H1 H3
    have hcount : ((markPhase msg.enums msg.enumValues).1.filter
        (fun e => containsKey e.2 c.1)).length
        = msg.enums.countP (fun e => startswith c.1 e.1) := by
      rw [henums, List.filter_map, List.length_map, ← List.countP_eq_length_filter]
      apply List.countP_congr
      intro e _
      show containsKey (matchedOf e.1 msg.enumValues) c.1 = true ↔ _
      rw [containsKey_matchedOf hc e.1]
    by_cases hmem : c.1 ∈ (markPhase msg.enums msg.enumValues).2
    · obtain ⟨e, he, c', hc', hck, hs⟩ := mem_markPhase_removals.1 hmem
      have hpos : 0 < msg.enums.countP (fun e => startswith c.1 e.1) :=
        List.countP_pos_iff.2 ⟨e, he, hs⟩
      have hone : msg.enums.countP (fun e => startswith c.1 e.1) = 1 :=
        Nat.le_antisymm (H4 c hc) hpos
      have hloose : containsKey (msg.enumValues.filter
          (fun c => decide (c.1 ∉ (markPhase msg.enums msg.enumValues).2))) c.1
          = false := by
        cases hck2 : containsKey (msg.enumValues.filter
            (fun c => decide (c.1 ∉ (markPhase msg.enums msg.enumValues).2))) c.1 with
        | false => rfl
        | true =>
          exfalso
          obtain ⟨v, hv⟩ := containsKey_iff_exists.1 hck2
          have hp := (List.mem_filter.1 hv).2
          rw [decide_eq_true_eq] at hp
          exact hp hmem
      rw [hloose, hcount, hone]
      simp
    · have hnomatch : msg.enums.countP (fun e => startswith c.1 e.1) = 0 := by
        rw [List.countP_eq_zero]
        intro e he hs
        exact hmem (mem_markPhase_removals.2 ⟨e, he, c, hc, rfl, hs⟩)
      have hloose : containsKey (msg.enumValues.filter
          (fun c => decide (c.1 ∉ (markPhase msg.enums msg.enumValues).2))) c.1
          = true :=
        containsKey_filter_of_mem c.2 hc (by simp [hmem])
      rw [hloose, hcount, hnomatch]
      simp

/-! ### The parse result is a function of the file contents alone:
the first component never depends on the incoming `invalid_units`
diagnostics state, which is only ever written to. -/

theorem processMetaItem_fst (fld : Field) (enums : EnumDict) (d₁ d₂ : List Str)
    (item : Str) :
    (processMetaItem fld enums d₁ item).1 = (processMetaItem fld enums d₂ item).1 := by
  unfold processMetaItem
  by_cases h1 : startswith (pyStrip item) ['@'] = false
  · simp only [if_pos h1]
  · simp only [if_neg h1]
    by_cases h2 : startswith (pyStrip item) tagEnum = true
    · simp only [if_pos h2]
    · simp only [if_neg h2]
      by_cases h3 : startswith (pyStrip item) tagRange = true
      · simp only [if_pos h3]
        cases hg : (pySplit ',' (pyStrip ((pyStrip item).drop 6))).get? 1 with
        | none => simp only [hg]
        | some p1 => simp only [hg]
      · simp only [if_neg h3]
        by_cases h4 : startswith (pyStrip item) tagInvalid = true
        · simp only [if_pos h4]
        · simp only [if_neg h4]

theorem processMetaItems_fst :
    ∀ (items : List Str) (fld : Field) (enums : EnumDict) (d₁ d₂ : List Str),
      (processMetaItems fld enums d₁ items).1
        = (processMetaItems fld enums d₂ items).1 := by
  intro items
  induction items with
  | nil => intro fld enums d₁ d₂; rfl
  | cons item rest ih =>
    intro fld enums d₁ d₂
    have h := processMetaItem_fst fld enums d₁ d₂ item
    show (match processMetaItem fld enums d₁ item with
      | (.ok (fld', enums'), diag') => processMetaItems fld' enums' diag' rest
      | (.error e, diag') => (.error e, diag')).1
      = (match processMetaItem fld enums d₂ item with
      | (.ok (fld', enums'), diag') => processMetaItems fld' enums' diag' rest
      | (.error e, diag') => (.error e, diag')).1
    cases hr1 : processMetaItem fld enums d₁ item with
    | mk a1 g1 =>
      cases hr2 : processMetaItem fld enums d₂ item with
      | mk a2 g2 =>
        rw [hr1, hr2] at h
        cases h
        cases a1 with
        | error e => rfl
        | ok p =>
          cases p with
          | mk fld' enums' => exact ih fld' enums' g1 g2

theorem mkMessageField_fst (name type : Str) (comment : Option Str) (k : Nat)
    (enums : EnumDict) (d₁ d₂ : List Str) :
    (mkMessageField name type comment k enums d₁).1
      = (mkMessageField name type comment k enums d₂).1 := by
  unfold mkMessageField
  cases comment with
  | none => rfl
  | some c =>
    by_cases hc : c = []
    · simp [hc]
    · simp only [if_neg hc]
      rcases hg : scanGroups c with ⟨ts, rest⟩
      cases ts with
      | nil => rfl
      | cons t ts' => exact processMetaItems_fst (t :: ts') _ enums d₁ d₂

theorem handleField_fst (msg : Message) (line : Str) (k : Nat) (d₁ d₂ : List Str) :
    (handleField msg line k d₁).1 = (handleField msg line k d₂).1 := by
  unfold handleField
  by_cases h1 : (declPartOf line).contains '=' = false
  · simp only [if_pos h1]
    cases hg : (pySplit ' ' (declPartOf line)).get? 1 with
    | none => rfl
    | some n1 =>
      simp only [hg]
      have h := mkMessageField_fst (pyStrip n1)
        (pyStrip ((pySplit ' ' (declPartOf line)).headD [])) (commentOf line) k
        msg.enums d₁ d₂
      cases hr1 : mkMessageField (pyStrip n1)
          (pyStrip ((pySplit ' ' (declPartOf line)).headD [])) (commentOf line) k
          msg.enums d₁ with
      | mk a1 g1 =>
        cases hr2 : mkMessageField (pyStrip n1)
            (pyStrip ((pySplit ' ' (declPartOf line)).headD [])) (commentOf line) k
            msg.enums d₂ with
        | mk a2 g2 =>
          rw [hr1, hr2] at h
          cases h
          cases a1 with
          | error e => rfl
          | ok p => cases p with | mk fld enums' => rfl
  · simp only [if_neg h1]
    cases hg : (pySplit ' ' ((pySplit '=' (declPartOf line)).headD [])).get? 1 with
    | none => rfl
    | some n1 =>
      simp only [hg]
      by_cases hv : pyStrip ((pySplit '=' (declPartOf line)).getLastD []) = []
      · simp only [if_pos hv]
      · simp only [if_neg hv]

theorem handleMatch_fst (msg : Message) (st : ParseState) (line : Str) (k : Nat)
    (d₁ d₂ : List Str) :
    ((match handleField msg line k d₁ with
      | (.ok msg', diag') => ((.ok { st with msg := msg' } : Except ParseErr ParseState), diag')
      | (.error e, diag') => (.error e, diag')) : Except ParseErr ParseState × List Str).1
    = (match handleField msg line k d₂ with
      | (.ok msg', diag') => ((.ok { st with msg := msg' } : Except ParseErr ParseState), diag')
      | (.error e, diag') => (.error e, diag')).1 := by
  have h := handleField_fst msg line k d₁ d₂
  cases hr1 : handleField msg line k d₁ with
  | mk a1 g1 =>
    cases hr2 : handleField msg line k d₂ with
    | mk a2 g2 =>
      rw [hr1, hr2] at h
      cases h
      cases a1 <;> rfl

theorem fieldsBlock_fst (st : ParseState) (d₁ d₂ : List Str) (k : Nat)
    (stripped : Str) :
    (fieldsBlock st d₁ k stripped).1 = (fieldsBlock st d₂ k stripped).1 := by
  unfold fieldsBlock
  by_cases h3 : stripped = []
  · simp only [if_pos h3]
  · simp only [if_neg h3]
    by_cases h5 : startswith stripped topicsMarker = true
    · simp only [if_pos h5]
    · simp only [if_neg h5]
      by_cases h6 : startswith stripped ['#'] = true
      · simp only [if_pos h6]
      · simp only [if_neg h6]
        exact handleMatch_fst st.msg st stripped k d₁ d₂

theorem parseLine_fst (st : ParseState) (d₁ d₂ : List Str) (k : Nat) (rawLine : Str) :
    (parseLine st d₁ k rawLine).1 = (parseLine st d₂ k rawLine).1 := by
  unfold parseLine
  by_cases h1 : (decide (st.found = false) && decide (normWs rawLine = [])) = true
  · simp only [if_pos h1]
  · simp only [if_neg h1]
    by_cases h2 : ((advanceState st (normWs rawLine)).gettingInitialComments
        && startswith (normWs rawLine) ['#']) = true
    · simp only [if_pos h2]
    · simp only [if_neg h2]
      exact fieldsBlock_fst _ d₁ d₂ k _

theorem parseFold_fst (lines : List (Nat × Str)) :
    ∀ (a : Except ParseErr ParseState) (d₁ d₂ : List Str),
      (lines.foldl parseStep (a, d₁)).1 = (lines.foldl parseStep (a, d₂)).1 := by
  induction lines with
  | nil => intro a d₁ d₂; rfl
  | cons p ps ih =>
    intro a d₁ d₂
    rw [List.foldl_cons, List.foldl_cons]
    cases a with
    | error e => exact ih _ d₁ d₂
    | ok st =>
      show (ps.foldl parseStep (parseLine st d₁ (p.1 + 1) p.2)).1
          = (ps.foldl parseStep (parseLine st d₂ (p.1 + 1) p.2)).1
      have h := parseLine_fst st d₁ d₂ (p.1 + 1) p.2
      cases hr1 : parseLine st d₁ (p.1 + 1) p.2 with
      | mk a1 g1 =>
        cases hr2 : parseLine st d₂ (p.1 + 1) p.2 with
        | mk a2 g2 =>
          rw [hr1, hr2] at h
          cases h
          exact ih a1 g1 g2

theorem parseFile_fst (lines : List Str) (d₁ d₂ : List Str) :
    (parseFile lines d₁).1 = (parseFile lines d₂).1 := by
  unfold parseFile
  have h := parseFold_fst lines.enum (.ok initState) d₁ d₂
  cases hr1 : lines.enum.foldl parseStep (.ok initState, d₁) with
  | mk a1 g1 =>
    cases hr2 : lines.enum.foldl parseStep (.ok initState, d₂) with
    | mk a2 g2 =>
      rw [hr1, hr2] at h
      cases h
      cases a1 with
      | error e => rfl
      | ok st =>
        dsimp only
        split <;> rfl

theorem takeWhile_all {α : Type} {p : α → Bool} :
    ∀ {l : List α}, (∀ x ∈ l, p x = true) → l.takeWhile p = l
  | [], _ => rfl
  | x :: xs, h => by
    rw [List.takeWhile_cons, if_pos (h x (List.mem_cons_self x xs)),
      takeWhile_all (fun y hy => h y (List.mem_cons_of_mem x hy))]

theorem dropWhile_none {α : Type} {p : α → Bool} :
    ∀ {l : List α}, (∀ x ∈ l, p x = false) → l.dropWhile p = l
  | [], _ => rfl
  | x :: xs, h => by
    rw [List.dropWhile_cons,
      if_neg (show ¬(p x = true) by
        rw [h x (List.mem_cons_self x xs)]
        decide)]

/-! ### The claims -/

/-- Claim C5 (confirmed): every bracketed metadata token that starts
with `@` but matches none of the `@enum`, `@range`, `@invalid`
prefixes makes annotation parsing fatal; the dispatcher reaches the
`exit()` branch instead of recording a recoverable diagnostic. -/
theorem C5_unknown_meta_fatal (fld : Field) (enums : EnumDict) (diag : List Str)
    (item : Str)
    (h1 : startswith (pyStrip item) ['@'] = true)
    (h2 : startswith (pyStrip item) tagEnum = false)
    (h3 : startswith (pyStrip item) tagRange = false)
    (h4 : startswith (pyStrip item) tagInvalid = false) :
    processMetaItem fld enums diag item = (.error .exitUnknownMeta, diag) := by
  have hn1 : ¬(startswith (pyStrip item) ['@'] = false) := by simp [h1]
  have hn2 : ¬(startswith (pyStrip item) tagEnum = true) := by simp [h2]
  have hn3 : ¬(startswith (pyStrip item) tagRange = true) := by simp [h3]
  have hn4 : ¬(startswith (pyStrip item) tagInvalid = true) := by simp [h4]
  unfold processMetaItem
  rw [if_neg hn1, if_neg hn2, if_neg hn3, if_neg hn4]

/-- Witness for C5 at the concrete token `@foo bar`. -/
theorem C5_witness :
    (startswith (pyStrip "@foo bar".toList) ['@'] = true
      ∧ startswith (pyStrip "@foo bar".toList) tagEnum = false
      ∧ startswith (pyStrip "@foo bar".toList) tagRange = false
      ∧ startswith (pyStrip "@foo bar".toList) tagInvalid = false)
    ∧ processMetaItem fld0 [] [] "@foo bar".toList
        = (.error .exitUnknownMeta, []) :=
  ⟨⟨by decide, by decide, by decide, by decide⟩,
   C5_unknown_meta_fatal fld0 [] [] _ (by decide) (by decide) (by decide)
     (by decide)⟩

/-- Claim C6 (confirmed): a bracketed token not starting with `@` is
stored as the field's unit unconditionally; when it is outside the
allow-list it is added to the `invalid_units` set without aborting,
and when it is in the allow-list the diagnostics are untouched. -/
theorem C6_unit_handling (fld : Field) (enums : EnumDict) (diag : List Str)
    (item : Str) (h : startswith (pyStrip item) ['@'] = false) :
    processMetaItem fld enums diag item
      = (.ok ({ fld with unit := some (pyStrip item) }, enums),
         if pyStrip item ∈ ALLOWED_UNITS then diag
         else setAdd diag (pyStrip item)) := by
  unfold processMetaItem
  rw [if_pos h]

/-- Witness for C6 at the disallowed unit `N` and the allowed unit
`m/s`. -/
theorem C6_witness :
    (startswith (pyStrip "N".toList) ['@'] = false
      ∧ processMetaItem fld0 [] [] "N".toList
          = (.ok ({ fld0 with unit := some "N".toList }, []), ["N".toList]))
    ∧ (startswith (pyStrip "m/s".toList) ['@'] = false
      ∧ processMetaItem fld0 [] [] "m/s".toList
          = (.ok ({ fld0 with unit := some "m/s".toList }, []), [])) :=
  ⟨⟨by decide, (C6_unit_handling fld0 [] [] _ (by decide)).trans (by rfl)⟩,
   ⟨by decide, (C6_unit_handling fld0 [] [] _ (by decide)).trans (by rfl)⟩⟩

/-- Claim C9 (confirmed): the `@range` handler reads the first two
comma-separated components of the trimmed remainder with no guard:
with at least one comma the parse succeeds and stores the trimmed
first and second components as `minValue` and `maxValue`; with no
comma the access to the second component is out of bounds and the
parse dies with an `IndexError`. -/
theorem C9_range_parsing (fld : Field) (enums : EnumDict) (diag : List Str)
    (item : Str) (hpre : startswith (pyStrip item) tagRange = true) :
    (∀ p0 p1 ps, pySplit ',' (pyStrip ((pyStrip item).drop 6)) = p0 :: p1 :: ps →
        processMetaItem fld enums diag item
          = (.ok
              ({ fld with
                  minValue := some (pyStrip p0),
                  maxValue := some (pyStrip p1) }, enums), diag))
    ∧ (',' ∉ pyStrip ((pyStrip item).drop 6) →
        processMetaItem fld enums diag item = (.error .indexError, diag))
    ∧ (',' ∈ pyStrip ((pyStrip item).drop 6) →
        ∃ p0 p1 ps, pySplit ',' (pyStrip ((pyStrip item).drop 6)) = p0 :: p1 :: ps) := by
  obtain ⟨t, ht⟩ := startswith_iff_append.1 hpre
  have h1 : ¬(startswith (pyStrip item) ['@'] = false) := by
    rw [ht, startswith_append_of_le t (by decide)]
    decide
  have h2 : ¬(startswith (pyStrip item) tagEnum = true) := by
    rw [ht, startswith_append_of_le t (by decide)]
    decide
  refine ⟨?_, ?_, ?_⟩
  · intro p0 p1 ps hsplit
    unfold processMetaItem
    rw [if_neg h1, if_neg h2, if_pos hpre, hsplit]
    rfl
  · intro hnc
    unfold processMetaItem
    rw [if_neg h1, if_neg h2, if_pos hpre, pySplit_of_not_mem hnc]
    rfl
  · intro hc
    have hlen := length_pySplit ',' (pyStrip ((pyStrip item).drop 6))
    have hcnt : 0 < (pyStrip ((pyStrip item).drop 6)).count ',' :=
      List.count_pos_iff.2 hc
    cases hsp : pySplit ',' (pyStrip ((pyStrip item).drop 6)) with
    | nil => exact absurd hsp (pySplit_ne_nil _ _)
    | cons p0 tl =>
      cases tl with
      | nil =>
        rw [hsp] at hlen
        simp only [List.length_cons, List.length_nil] at hlen
        omega
      | cons p1 ps => exact ⟨p0, p1, ps, rfl⟩

/-- Witness for C9 at the concrete tokens `@range 0,100` (comma
present) and `@range 5` (no comma). -/
theorem C9_witness :
    (startswith (pyStrip "@range 0,100".toList) tagRange = true
      ∧ pySplit ',' (pyStrip ((pyStrip "@range 0,100".toList).drop 6))
          = ["0".toList, "100".toList]
      ∧ processMetaItem fld0 [] [] "@range 0,100".toList
          = (.ok
              ({ fld0 with
                  minValue := some "0".toList,
                  maxValue := some "100".toList }, []), []))
    ∧ (startswith (pyStrip "@range 5".toList) tagRange = true
      ∧ ',' ∉ pyStrip ((pyStrip "@range 5".toList).drop 6)
      ∧ processMetaItem fld0 [] [] "@range 5".toList
          = (.error .indexError, [])) := by
  refine ⟨⟨by decide, by decide, ?_⟩, ⟨by decide, by decide, ?_⟩⟩
  · exact (C9_range_parsing fld0 [] [] _ (by decide)).1 "0".toList "100".toList []
      (by decide)
  · exact (C9_range_parsing fld0 [] [] _ (by decide)).2.1 (by decide)

/-- Claim C2 (corrected): a declaration whose part before the first
`#` contains `=` is indeed classified as a constant, and its type and
name come from splitting the text before the first `=` on spaces; but
the value is the text after the *last* `=` (Python
`split("=")[-1]`), not everything after the first `=` as the claim
states. -/
theorem C2_constant_parsing (msg : Message) (line : Str) (k : Nat) (diag : List Str)
    (a b c t n : Str) (ts : List Str)
    (hab : declPartOf line = a ++ '=' :: b) (hb : '=' ∉ b)
    (hcd : ∃ d, declPartOf line = c ++ '=' :: d) (hc : '=' ∉ c)
    (hsplit : pySplit ' ' c = t :: n :: ts)
    (hval : pyStrip b ≠ []) :
    handleField msg line k diag
      = (.ok { msg with
               enumValues := assocInsert msg.enumValues n
                 ⟨pyStrip n, pyStrip t, pyStrip b, commentOf line, k⟩ }, diag) := by
  obtain ⟨d, hcd⟩ := hcd
  have hcontains : (declPartOf line).contains '=' = true := by
    rw [hab]
    exact List.elem_iff.2 (List.mem_append_right a (List.mem_cons_self '=' b))
  have hne : ¬((declPartOf line).contains '=' = false) := by
    rw [hcontains]
    decide
  have hlast : (pySplit '=' (declPartOf line)).getLastD [] = b := by
    rw [hab]
    exact getLastD_pySplit hb a
  have hhead : (pySplit '=' (declPartOf line)).headD [] = c := by
    rw [hcd]
    exact headD_pySplit d hc
  have hget : (pySplit ' ' ((pySplit '=' (declPartOf line)).headD [])).get? 1
      = some n := by
    rw [hhead, hsplit]
    rfl
  have htype : (pySplit ' ' ((pySplit '=' (declPartOf line)).headD [])).headD []
      = t := by
    rw [hhead, hsplit]
    rfl
  unfold handleField
  rw [if_neg hne]
  dsimp only
  rw [hget]
  dsimp only
  rw [hlast, htype, if_neg hval]

/-- Counterexample for C2: on `uint8 X = a=b` the stored value is `b`
(the text after the last `=`), not `a=b` as the claim predicts. -/
theorem C2_counterexample :
    handleField emptyMessage c2line 1 []
      = (.ok { emptyMessage with enumValues := [("X".toList, c2const)] }, [])
    ∧ c2const.value = "b".toList
    ∧ ¬("b".toList = "a=b".toList)
    ∧ pyStrip " a=b".toList = "a=b".toList :=
  ⟨rfl, rfl, by decide, by decide⟩

/-- Witness for C2 at the concrete line `uint8 X = a=b`. -/
theorem C2_witness :
    (declPartOf c2line = "uint8 X = a".toList ++ '=' :: "b".toList
      ∧ '=' ∉ "b".toList
      ∧ declPartOf c2line = "uint8 X ".toList ++ '=' :: " a=b".toList
      ∧ '=' ∉ "uint8 X ".toList
      ∧ pySplit ' ' "uint8 X ".toList = "uint8".toList :: "X".toList :: [[]]
      ∧ pyStrip "b".toList ≠ [])
    ∧ handleField emptyMessage c2line 1 []
        = (.ok { emptyMessage with enumValues := [("X".toList, c2const)] }, []) := by
  refine ⟨⟨by decide, by decide, by decide, by decide, by decide, by decide⟩, ?_⟩
  exact (C2_constant_parsing emptyMessage c2line 1 [] "uint8 X = a".toList
    "b".toList "uint8 X ".toList "uint8".toList "X".toList [[]]
    (by decide) (by decide) ⟨" a=b".toList, by decide⟩ (by decide) (by decide)
    (by decide)).trans (by rfl)

/-- Claim C3 (corrected): a constant whose value is empty after
trimming does abort processing; but an empty parsed *name* is not
checked at all (only the `TODO` comment mentions it), so processing
continues silently.  This theorem is the amended, value-only half. -/
theorem C3_empty_value_fatal (msg : Message) (line : Str) (k : Nat) (diag : List Str)
    (h1 : (declPartOf line).contains '=' = true)
    (h2 : pyStrip ((pySplit '=' (declPartOf line)).getLastD []) = []) :
    ∃ e, (handleField msg line k diag).1 = .error e := by
  have hne : ¬((declPartOf line).contains '=' = false) := by
    rw [h1]
    decide
  unfold handleField
  rw [if_neg hne]
  dsimp only
  cases hg : (pySplit ' ' ((pySplit '=' (declPartOf line)).headD [])).get? 1 with
  | none => exact ⟨.indexError, rfl⟩
  | some n1 =>
    refine ⟨.exitNoValue, ?_⟩
    dsimp only
    rw [if_pos h2]

/-- Counterexample for C3: the line `uint8 = 5` parses to a constant
whose name is empty, and processing continues with `.ok` instead of
aborting. -/
theorem C3_counterexample :
    handleField emptyMessage c3line 1 []
      = (.ok { emptyMessage with enumValues := [([], c3const)] }, [])
    ∧ c3const.name = []
    ∧ pyStrip c3const.name = [] :=
  ⟨rfl, rfl, rfl⟩

/-- Witness for C3 at the concrete line `uint8 X =` (empty value). -/
theorem C3_witness :
    ((declPartOf "uint8 X =".toList).contains '=' = true
      ∧ pyStrip ((pySplit '=' (declPartOf "uint8 X =".toList)).getLastD []) = [])
    ∧ ∃ e, (handleField emptyMessage "uint8 X =".toList 1 []).1 = .error e :=
  ⟨⟨by decide, by decide⟩,
   C3_empty_value_fatal emptyMessage _ 1 [] (by decide) (by decide)⟩

/-- Claim C10 (confirmed): a constant declaration whose parsed name is
already present in the loose constant mapping silently replaces the
earlier entry: no error is raised, the diagnostics state is untouched,
the key set is unchanged, and lookup afterwards returns only the
last-declared type, value and comment. -/
theorem C10_duplicate_constant_replaces (msg : Message) (line : Str) (k : Nat)
    (diag : List Str) (n : Str)
    (h1 : (declPartOf line).contains '=' = true)
    (h2 : (pySplit ' ' ((pySplit '=' (declPartOf line)).headD [])).get? 1 = some n)
    (h3 : pyStrip ((pySplit '=' (declPartOf line)).getLastD []) ≠ [])
    (h4 : containsKey msg.enumValues n = true) :
    handleField msg line k diag
      = (.ok { msg with
               enumValues :=
                 assocInsert msg.enumValues n (constantOfLine line n k) }, diag)
    ∧ lookupKey (assocInsert msg.enumValues n (constantOfLine line n k)) n
        = some (constantOfLine line n k)
    ∧ keys (assocInsert msg.enumValues n (constantOfLine line n k))
        = keys msg.enumValues := by
  refine ⟨?_, lookupKey_assocInsert_self _ _ _,
    keys_assocInsert_of_containsKey _ h4⟩
  have hne : ¬((declPartOf line).contains '=' = false) := by
    rw [h1]
    decide
  unfold handleField
  rw [if_neg hne]
  dsimp only
  rw [h2]
  dsimp only
  rw [if_neg h3]
  rfl

/-- Witness for C10: a second `X` declaration replaces the first. -/
theorem C10_witness :
    ((declPartOf c10line).contains '=' = true
      ∧ (pySplit ' ' ((pySplit '=' (declPartOf c10line)).headD [])).get? 1
          = some "X".toList
      ∧ pyStrip ((pySplit '=' (declPartOf c10line)).getLastD []) ≠ []
      ∧ containsKey c10msg.enumValues "X".toList = true)
    ∧ handleField c10msg c10line 2 []
        = (.ok { c10msg with
                 enumValues :=
                   assocInsert c10msg.enumValues "X".toList
                     (constantOfLine c10line "X".toList 2) }, [])
    ∧ lookupKey
        (assocInsert c10msg.enumValues "X".toList
          (constantOfLine c10line "X".toList 2)) "X".toList
        = some { name := "X".toList, type := "uint8".toList,
                 value := "2".toList, comment := some "two".toList,
                 lineNumber := 2 } := by
  have h := C10_duplicate_constant_replaces c10msg c10line 2 [] "X".toList
    (by decide) (by decide) (by decide) (by decide)
  exact ⟨⟨by decide, by decide, by decide, by decide⟩, h.1, h.2.1.trans (by rfl)⟩

/-- Claim C1 (corrected): the claim holds only when no constant name
has two distinct enum names as prefixes.  Under that precondition
(together with the dictionary invariants that hold at the call site:
unique loose constant names and still-empty enum value mappings) the
association pass completes, every constant ends up held in exactly one
place, and every name marked for removal is marked once and deleted
once.  Without it the pass double-marks and crashes — see the
counterexample. -/
theorem C1_association_amended (msg : Message)
    (H1 : (keys msg.enumValues).Nodup)
    (H3 : ∀ e ∈ msg.enums, e.2 = ([] : List (Str × Constant)))
    (H4 : ∀ c ∈ msg.enumValues,
      msg.enums.countP (fun e => startswith c.1 e.1) ≤ 1) :
    ∃ msg', associationPass msg = .ok msg'
      ∧ (∀ c ∈ msg.enumValues, constantHolders msg' c.1 = 1)
      ∧ (markPhase msg.enums msg.enumValues).2.Nodup
      ∧ (∀ n ∈ (markPhase msg.enums msg.enumValues).2,
          containsKey msg.enumValues n = true) := by
  obtain ⟨msg', h1, _, _, h4, h5, h6⟩ := associationPass_spec msg H1 H3 H4
  exact ⟨msg', h1, h6, h4, h5⟩

/-- Counterexample for C1: with enums `STATUS` and `STATUS_O` and the
constant `STATUS_OK`, the constant is copied into *both* enums, its
name is appended to the removal list *twice*, and the deletion loop
raises `KeyError` on the second delete — reachable from a schema file
end to end. -/
theorem C1_counterexample :
    (msgOfState c1cexFold).enums = c1cexEnums
    ∧ (msgOfState c1cexFold).enumValues = c1cexLoose
    ∧ (markPhase c1cexEnums c1cexLoose).2
        = ["STATUS_OK".toList, "STATUS_OK".toList]
    ∧ ((markPhase c1cexEnums c1cexLoose).1.filter
        (fun e => containsKey e.2 "STATUS_OK".toList)).length = 2
    ∧ deletePhase c1cexLoose (markPhase c1cexEnums c1cexLoose).2
        = .error .keyError
    ∧ parseFile c1cexLines [] = (.error .keyError, []) :=
  ⟨rfl, rfl, rfl, rfl, rfl, rfl⟩

/-- Witness for C1 at the specification's own association example. -/
theorem C1_witness :
    ((keys c1witMsg.enumValues).Nodup
      ∧ (∀ e ∈ c1witMsg.enums, e.2 = ([] : List (Str × Constant)))
      ∧ (∀ c ∈ c1witMsg.enumValues,
          c1witMsg.enums.countP (fun e => startswith c.1 e.1) ≤ 1))
    ∧ ∃ msg', associationPass c1witMsg = .ok msg'
      ∧ (∀ c ∈ c1witMsg.enumValues, constantHolders msg' c.1 = 1)
      ∧ (markPhase c1witMsg.enums c1witMsg.enumValues).2.Nodup
      ∧ (∀ n ∈ (markPhase c1witMsg.enums c1witMsg.enumValues).2,
          containsKey c1witMsg.enumValues n = true) :=
  ⟨⟨by decide, by decide, by decide⟩,
   C1_association_amended c1witMsg (by decide) (by decide) (by decide)⟩

/-- Claim C4 (confirmed): the round-trip example parses to short
description `Short one.` and long description
`Long line one.\nLong line two.\n`; in general, on trimmed header
lines the post-processing space-joins the non-blank run before the
first blank line into the short description and newline-joins the
lines after it into the long description, and a header with no blank
line yields an empty long description. -/
theorem C4_description_roundtrip :
    (shortOf (parseFile c4lines []).1 = "Short one.".toList
      ∧ longOf (parseFile c4lines []).1
          = "Long line one.\nLong line two.\n".toList)
    ∧ ∀ hs : List Str, (∀ l ∈ hs, pyStrip l = l) →
        (headerSummary hs
          = (joinWith [' ']
              ((hs.dropWhile (fun l => decide (l = []))).takeWhile
                (fun l => decide (l ≠ []))),
             joinLinesNL
              (((hs.dropWhile (fun l => decide (l = []))).drop
                ((hs.dropWhile (fun l => decide (l = []))).takeWhile
                  (fun l => decide (l ≠ []))).length).tail)))
        ∧ ((∀ l ∈ hs, l ≠ []) → (headerSummary hs).2 = []) := by
  refine ⟨⟨rfl, rfl⟩, fun hs h => ⟨headerSummary_spec hs h, fun hnb => ?_⟩⟩
  have hdw : hs.dropWhile (fun l => decide (l = [])) = hs :=
    dropWhile_none (fun x hx => by simp [hnb x hx])
  have htw : hs.takeWhile (fun l => decide (l ≠ [])) = hs :=
    takeWhile_all (fun x hx => by simp [hnb x hx])
  rw [headerSummary_spec hs h]
  show joinLinesNL _ = []
  rw [hdw, htw, List.drop_length]
  rfl

/-- Witness for C4 at the concrete header block. -/
theorem C4_witness :
    (∀ l ∈ c4header, pyStrip l = l)
    ∧ headerSummary c4header
        = ("Short one.".toList, "Long line one.\nLong line two.\n".toList) := by
  refine ⟨by decide, ?_⟩
  rw [(C4_description_roundtrip.2 c4header (by decide)).1]
  rfl

/-- Claim C7 (confirmed): the declaration classifier turns
`uint8 status # [@enum STATUS] current status` into a field named
`status` of type `uint8` with enum tag list `[STATUS]` and description
`current status`, lazily creating the empty enum `STATUS` on the
message; and turns `uint8 STATUS_OK = 0 # nominal` into a constant
named `STATUS_OK` with value `0` and comment `nominal`. -/
theorem C7_classifier_examples :
    handleField emptyMessage c7line1 1 []
      = (.ok { emptyMessage with
               fields := [c7field],
               enums := [("STATUS".toList, [])] }, [])
    ∧ handleField emptyMessage c7line2 2 []
      = (.ok { emptyMessage with
               enumValues := [("STATUS_OK".toList, c7const)] }, []) :=
  ⟨rfl, rfl⟩

/-- Claim C8 (confirmed): the Document Model computed by a parse is a
function of the file's lines alone.  In the embedding the parse is
deterministic by construction; the one piece of process-wide mutable
state it touches, the `invalid_units` set, is threaded explicitly, and
this theorem shows the model part of the result does not depend on it:
re-parsing byte-identical input later in the process (with whatever
diagnostics have accumulated) yields a structurally identical model. -/
theorem C8_parse_deterministic (lines : List Str) (d₁ d₂ : List Str) :
    (parseFile lines d₁).1 = (parseFile lines d₂).1 :=
  parseFile_fst lines d₁ d₂

end MsgDocs
